import Mathlib

/-!
# Verification development for `ascent` (vtk-h compositing image and contour-tree test helpers)

Embedded sources:
* `src/libs/vtkh/compositing/Image.cpp`           : `Image::Save` (both overloads)
* `src/tests/vtkh/t_vtk-h_contour_tree.cpp`        : `ComputeNumberOfBlocksPerAxis`,
  `ComputeBlockExtents`, `CreateSubDataSet`, `GetPartitionedDataSet`, `ReadTestData`

Conventions.  `vtkm::Id` is a signed 64-bit integer; it is embedded as `Int`, and results of
arithmetic that can leave the 64-bit range are wrapped with `wrapId`.  `std::size_t` is an unsigned
64-bit integer embedded as `Nat` reduced modulo `2^64`; `int` is a signed 32-bit integer.
-/

namespace Ascent

/-! ## Data model of `Image` -/

/-- Modelled from the spec: one inclusive integer range of a `Bounds` (`X.Min..X.Max`); the
declaration lives in `Image.hpp`, which is not among the sources. -/
structure Range where
  Min : Int
  Max : Int
deriving DecidableEq, Repr

/-- Modelled from the spec: `Bounds`, two inclusive integer ranges in screen coordinates; the
declaration lives in `Image.hpp`, which is not among the sources. -/
structure Bounds where
  X : Range
  Y : Range
deriving DecidableEq, Repr

/-- Modelled from the spec: the members of `Image` that `Image::Save` touches, `m_bounds` and the
pixel buffer `m_pixels` (4 samples per pixel); the declaration lives in `Image.hpp`. -/
structure Image where
  m_bounds : Bounds
  m_pixels : List Nat
deriving DecidableEq, Repr

/-- Spec invariant of `Bounds`: `min ≤ max` on both axes. -/
def Bounds.Valid (b : Bounds) : Prop :=
  b.X.Min ≤ b.X.Max ∧ b.Y.Min ≤ b.Y.Max

instance (b : Bounds) : Decidable b.Valid := by
  unfold Bounds.Valid; infer_instance

/-- The width expression of `Image::Save`: `m_bounds.X.Max - m_bounds.X.Min + 1`. -/
def Bounds.width (b : Bounds) : Int := b.X.Max - b.X.Min + 1

/-- The height expression of `Image::Save`: `m_bounds.Y.Max - m_bounds.Y.Min + 1`. -/
def Bounds.height (b : Bounds) : Int := b.Y.Max - b.Y.Min + 1

/-- Spec invariants of `Image`: width and height are non-negative and the pixel buffer holds
`width × height × 4` samples. -/
def Image.Invariant (img : Image) : Prop :=
  0 ≤ img.m_bounds.width ∧ 0 ≤ img.m_bounds.height ∧
    (img.m_pixels.length : Int) = img.m_bounds.width * img.m_bounds.height * 4

instance (img : Image) : Decidable img.Invariant := by
  unfold Image.Invariant; infer_instance

/-! ## The encoder collaborator, as a recorder of the calls it receives -/

/-- A pointer into a pixel buffer: the buffer it points into and the index of the element it
points at (`&m_pixels[0]` is the buffer with `offset = 0`). -/
structure PixelPtr where
  buffer : List Nat
  offset : Nat
deriving DecidableEq, Repr

/-- The four arguments of `PNGEncoder::Encode(pixels, width, height, comments)`. -/
structure EncodeArgs where
  pixels : PixelPtr
  width : Int
  height : Int
  comments : List String
deriving DecidableEq, Repr

/-- One call made on the encoder. -/
inductive EncoderCall where
  | Encode (args : EncodeArgs)
  | Save (name : String)
deriving DecidableEq, Repr

/-- The external `ascent::PNGEncoder`, observed only through the calls made on it, oldest
first.  A freshly constructed encoder has received none. -/
structure PNGEncoder where
  calls : List EncoderCall
deriving DecidableEq, Repr

/-- The encoder after `encoder.Encode(pixels, width, height, comments)`. -/
def PNGEncoder.Encode (e : PNGEncoder) (pixels : PixelPtr) (width height : Int)
    (comments : List String) : PNGEncoder :=
  ⟨e.calls ++ [EncoderCall.Encode ⟨pixels, width, height, comments⟩]⟩

/-- The encoder after `encoder.Save(name)`. -/
def PNGEncoder.Save (e : PNGEncoder) (name : String) : PNGEncoder :=
  ⟨e.calls ++ [EncoderCall.Save name]⟩

/-- What one run of `Image::Save` leaves behind: the image afterwards, the encoder with the calls
it received, and the indices at which `m_pixels` was subscripted with `operator[]`. -/
structure SaveEffect where
  image : Image
  encoder : PNGEncoder
  subscripts : List Nat
deriving DecidableEq, Repr

/-- `void Image::Save(const std::string &name, const std::vector<std::string> &comments)`. -/
def Image.Save (img : Image) (name : String) (comments : List String) : SaveEffect :=
  let encoder : PNGEncoder := ⟨[]⟩
  let encoder := encoder.Encode ⟨img.m_pixels, 0⟩
    (img.m_bounds.X.Max - img.m_bounds.X.Min + 1)
    (img.m_bounds.Y.Max - img.m_bounds.Y.Min + 1)
    comments
  let encoder := encoder.Save name
  ⟨img, encoder, [0]⟩

/-- `void Image::Save(const std::string &name, const std::vector<std::string> &comments) const`. -/
def Image.Save_const (img : Image) (name : String) (comments : List String) : SaveEffect :=
  let encoder : PNGEncoder := ⟨[]⟩
  let encoder := encoder.Encode ⟨img.m_pixels, 0⟩
    (img.m_bounds.X.Max - img.m_bounds.X.Min + 1)
    (img.m_bounds.Y.Max - img.m_bounds.Y.Min + 1)
    comments
  let encoder := encoder.Save name
  ⟨img, encoder, [0]⟩

/-- Every `operator[]` subscript that `Save` applies to `m_pixels` is a valid index of it. -/
def SaveEffect.SubscriptsInside (r : SaveEffect) : Prop :=
  ∀ i ∈ r.subscripts, i < r.image.m_pixels.length

/-- A colour sample: three colour channels and alpha. -/
structure RGBA where
  r : ℚ
  g : ℚ
  b : ℚ
  a : ℚ
deriving DecidableEq

/-- Modelled from the spec: the BLEND-mode merge of section 4.1, whose code is not among the
sources: `outColor = srcColor + dstColor×(1−srcAlpha)` per colour channel and
`outAlpha = srcAlpha + dstAlpha×(1−srcAlpha)`. -/
def over (src dst : RGBA) : RGBA :=
  ⟨src.r + dst.r * (1 - src.a),
   src.g + dst.g * (1 - src.a),
   src.b + dst.b * (1 - src.a),
   src.a + dst.a * (1 - src.a)⟩

/-! ## Machine integers -/

/-- Wrap an integer into the range of the signed 64-bit `vtkm::Id`. -/
def wrapId (x : Int) : Int := (x + 2 ^ 63) % 2 ^ 64 - 2 ^ 63

/-- The values a `vtkm::Id` can hold. -/
def IsId (x : Int) : Prop := -(2 ^ 63) ≤ x ∧ x < 2 ^ 63

/-- Conversion of an `int` to `std::size_t`: the value modulo `2^64`. -/
def intToSizeT (i : Int) : Nat := (i % 2 ^ 64).toNat

/-- Conversion of a `std::size_t` to the 32-bit `int`: the value modulo `2^32`, taken in
`[-2^31, 2^31)`. -/
def sizeTToInt (n : Nat) : Int :=
  if n % 2 ^ 32 < 2 ^ 31 then ((n % 2 ^ 32 : Nat) : Int) else ((n % 2 ^ 32 : Nat) : Int) - 2 ^ 32

/-- `std::multiplies<std::size_t>()`: the product modulo `2^64`. -/
def multiplies_size_t (a b : Nat) : Nat := (a * b) % 2 ^ 64

/-! ## `ReadTestData`: from the parsed header to the dimension check -/

/-- `std::accumulate(dims.begin(), dims.end(), 1, std::multiplies<std::size_t>())`: the
accumulator has the type of the initial value, `int`; each step converts it to `std::size_t`,
multiplies, and converts the product back to `int`. -/
def accumulate (dims : List Nat) (init : Int) : Int :=
  dims.foldl (fun acc d => sizeTToInt (multiplies_size_t (intToSizeT acc) d)) init

/-- The locals of `ReadTestData` when it reaches the dimension check. -/
structure HeaderState where
  dims : List Nat
  nDims : Nat
  nVertices : Nat
deriving DecidableEq, Repr

/-- How a run of `ReadTestData` ends: it returns a value, or it subscripts `dims` at an index
that is not below the vector's size (undefined behaviour of `operator[]`). -/
inductive ReadOutcome where
  | returned (value : Bool)
  | subscriptOutside (index size : Nat)
deriving DecidableEq, Repr

/-- `std::swap( dims[0], dims[1] )`: both subscripts are evaluated, then the elements are
exchanged; `Except.error (i, size)` reports the first subscript `i` that is not below `size`. -/
def swapDims (dims : List Nat) : Except (Nat × Nat) (List Nat) :=
  match dims with
  | [] => Except.error (0, 0)
  | [_] => Except.error (1, 1)
  | d0 :: d1 :: rest => Except.ok (d1 :: d0 :: rest)

/-- `ReadTestData` from the end of the header loop (with `dims` the numbers read from the header
line, in order) to the dimension check: the swap, `nDims` (a cast to `unsigned short`) and
`nVertices`. -/
def ReadTestData_header (dims : List Nat) : Except (Nat × Nat) HeaderState :=
  match swapDims dims with
  | Except.error e => Except.error e
  | Except.ok dims =>
    let nDims := dims.length % 2 ^ 16
    let nVertices := intToSizeT (accumulate dims 1)
    Except.ok ⟨dims, nDims, nVertices⟩

/-- `ReadTestData` on a readable file whose header line holds the numbers `dims`: `false` at the
dimension check when `nDims < 2 || nDims > 3`; otherwise the function reads the values, builds
the data set and ends in `return( true )`. -/
def ReadTestData (dims : List Nat) : ReadOutcome :=
  match ReadTestData_header dims with
  | Except.error (i, size) => ReadOutcome.subscriptOutside i size
  | Except.ok st =>
    let invalidNumDimensions := st.nDims < 2 || st.nDims > 3
    if invalidNumDimensions then ReadOutcome.returned false
    else ReadOutcome.returned true

/-! ## `vtkm::Id3` -/

/-- `vtkm::Id3`: three `vtkm::Id` components, subscripted by `0`, `1`, `2`. -/
structure Id3 where
  c0 : Int
  c1 : Int
  c2 : Int
deriving DecidableEq, Repr

/-- `v[d]` as an rvalue. -/
def Id3.get (v : Id3) (d : Fin 3) : Int :=
  match d with
  | 0 => v.c0
  | 1 => v.c1
  | 2 => v.c2

/-- The vector after `v[d] = a`. -/
def Id3.set (v : Id3) (d : Fin 3) (a : Int) : Id3 :=
  match d with
  | 0 => ⟨a, v.c1, v.c2⟩
  | 1 => ⟨v.c0, a, v.c2⟩
  | 2 => ⟨v.c0, v.c1, a⟩

/-! ## `ComputeNumberOfBlocksPerAxis` -/

/-- The first loop of `ComputeNumberOfBlocksPerAxis`, from the loop head with the current
`currNumberOfBlock` and `numSplits`, for at most `fuel` rounds; returns
`(numSplits, isPowerOfTwo)` at loop exit. -/
def countSplitsFrom : Nat → Int → Int → Int × Bool
  | 0, _, numSplits => (numSplits, true)
  | fuel + 1, currNumberOfBlock, numSplits =>
    if currNumberOfBlock > 1 then
      if currNumberOfBlock.tmod 2 ≠ 0 then (numSplits, false)
      else countSplitsFrom fuel (currNumberOfBlock.tdiv 2) (numSplits + 1)
    else (numSplits, true)

/-- The first loop of `ComputeNumberOfBlocksPerAxis`, run to its exit: `currNumberOfBlock`
rounds always suffice (`countSplits_loop` below is the loop equation). -/
def countSplits (currNumberOfBlock numSplits : Int) : Int × Bool :=
  countSplitsFrom currNumberOfBlock.toNat currNumberOfBlock numSplits

/-- The axis search `splitAxis = 0; for (d = 1; d < 3; ++d) if (globalSize[d] >
globalSize[splitAxis]) splitAxis = d;`. -/
def findSplitAxis (globalSize : Id3) : Fin 3 :=
  [1, 2].foldl
    (fun splitAxis d => if globalSize.get d > globalSize.get splitAxis then d else splitAxis) 0

/-- The loop `while (numSplits > 0)` of the power-of-two branch, run for `numSplits` more
rounds; `none` when `VTKM_ASSERT(globalSize[splitAxis] > 1)` fails with assertions compiled in
(`asserts = true`); with `asserts = false` the assertion is compiled out. -/
def splitLoop (asserts : Bool) : Nat → Id3 → Id3 → Option Id3
  | 0, _, splitsPerAxis => some splitsPerAxis
  | numSplits + 1, globalSize, splitsPerAxis =>
    let splitAxis := findSplitAxis globalSize
    if asserts && !decide (globalSize.get splitAxis > 1) then none
    else
      splitLoop asserts numSplits
        (globalSize.set splitAxis ((globalSize.get splitAxis).tdiv 2))
        (splitsPerAxis.set splitAxis (splitsPerAxis.get splitAxis + 1))

/-- `vtkm::Id{ 1 } << s`. -/
def shiftOne (s : Int) : Int := wrapId (2 ^ s.toNat)

/-- `ComputeNumberOfBlocksPerAxis(globalSize, numberOfBlocks)`; `none` when a `VTKM_ASSERT`
fails with assertions compiled in. -/
def ComputeNumberOfBlocksPerAxis (asserts : Bool) (globalSize : Id3) (numberOfBlocks : Int) :
    Option Id3 :=
  let r := countSplits numberOfBlocks 0
  let numSplits := r.1
  let isPowerOfTwo := r.2
  if isPowerOfTwo then
    match splitLoop asserts numSplits.toNat globalSize ⟨0, 0, 0⟩ with
    | none => none
    | some splitsPerAxis =>
      some ⟨shiftOne splitsPerAxis.c0, shiftOne splitsPerAxis.c1, shiftOne splitsPerAxis.c2⟩
  else
    let splitAxis := findSplitAxis globalSize
    some ((⟨1, 1, 1⟩ : Id3).set splitAxis numberOfBlocks)

/-! ## `CreateSubDataSet`: the index loop -/

/-- Sum of two `vtkm::Id`. -/
def idAdd (a b : Int) : Int := wrapId (a + b)

/-- Product of two `vtkm::Id`. -/
def idMul (a b : Int) : Int := wrapId (a * b)

/-- The values of `i` in `for (i = 0; i < n; ++i)`. -/
def loopValues (n : Int) : List Int := (List.range n.toNat).map Int.ofNat

/-- The values of `outArrIdx` in the triple loop of `CreateSubDataSet`, in execution order. -/
def loopIterations (blockSize : Id3) : List Id3 :=
  (loopValues blockSize.c2).flatMap fun z =>
    (loopValues blockSize.c1).flatMap fun y =>
      (loopValues blockSize.c0).map fun x => (⟨x, y, z⟩ : Id3)

/-- `nOutValues = blockSize[0] * blockSize[1] * blockSize[2]`. -/
def nOutValues (blockSize : Id3) : Int := idMul (idMul blockSize.c0 blockSize.c1) blockSize.c2

/-- `inIdx` of one iteration: `inArrIdx = outArrIdx + blockOrigin`,
`inIdx = (inArrIdx[2] * globalSize[1] + inArrIdx[1]) * globalSize[0] + inArrIdx[0]`. -/
def inIdx (globalSize blockOrigin outArrIdx : Id3) : Int :=
  let inArrIdx : Id3 := ⟨idAdd outArrIdx.c0 blockOrigin.c0, idAdd outArrIdx.c1 blockOrigin.c1,
    idAdd outArrIdx.c2 blockOrigin.c2⟩
  idAdd (idMul (idAdd (idMul inArrIdx.c2 globalSize.c1) inArrIdx.c1) globalSize.c0) inArrIdx.c0

/-- `outIdx` of one iteration:
`outIdx = (outArrIdx[2] * blockSize[1] + outArrIdx[1]) * blockSize[0] + outArrIdx[0]`. -/
def outIdx (blockSize outArrIdx : Id3) : Int :=
  idAdd (idMul (idAdd (idMul outArrIdx.c2 blockSize.c1) outArrIdx.c1) blockSize.c0) outArrIdx.c0

/-- The two `VTKM_ASSERT`s of one iteration, with `numberOfValues` the size of the input field
(`inDataArrayHandle.GetNumberOfValues()`). -/
def assertsHold (globalSize blockOrigin blockSize : Id3) (numberOfValues : Int)
    (outArrIdx : Id3) : Prop :=
  (inIdx globalSize blockOrigin outArrIdx ≥ 0 ∧
    inIdx globalSize blockOrigin outArrIdx < numberOfValues) ∧
  (outIdx blockSize outArrIdx ≥ 0 ∧ outIdx blockSize outArrIdx < nOutValues blockSize)

instance (globalSize blockOrigin blockSize : Id3) (numberOfValues : Int) (outArrIdx : Id3) :
    Decidable (assertsHold globalSize blockOrigin blockSize numberOfValues outArrIdx) := by
  unfold assertsHold; infer_instance

/-- The triple loop of `CreateSubDataSet`: the `copyIdsPortal.Set(outIdx, inIdx)` calls it makes,
in order, or `none` when an assertion fails. -/
def copyLoop (globalSize blockOrigin blockSize : Id3) (numberOfValues : Int) :
    Option (List (Int × Int)) :=
  (loopIterations blockSize).foldl
    (fun acc outArrIdx =>
      match acc with
      | none => none
      | some sets =>
        if assertsHold globalSize blockOrigin blockSize numberOfValues outArrIdx then
          some (sets ++ [(outIdx blockSize outArrIdx, inIdx globalSize blockOrigin outArrIdx)])
        else none)
    (some [])

/-! ## `GetPartitionedDataSet`: the blocks of one rank -/

/-- Difference of two `vtkm::Id`. -/
def idSub (a b : Int) : Int := wrapId (a - b)

/-- The values an `int` can hold. -/
def IsInt (x : Int) : Prop := -(2 ^ 31) ≤ x ∧ x < 2 ^ 31

/-- The two locals of `GetPartitionedDataSet` that fix the blocks of a rank. -/
structure RankBlocks where
  blocksOnThisRank : Int
  startBlockNo : Int
deriving DecidableEq, Repr

/-- The "Determine split" part of `GetPartitionedDataSet` for the `int` arguments
`numberOfBlocks`, `rank`, `numberOfRanks`: `blocksPerRank` and `numRanksWithExtraBlock` are the
`int` quotient and remainder, the branch on `rank < numRanksWithExtraBlock` computes
`blocksOnThisRank` and `startBlockNo` in `vtkm::Id` arithmetic.  (`numberOfRanks = 0` is a
division by zero in the source.) -/
def GetPartitionedDataSet_split (numberOfBlocks rank numberOfRanks : Int) : RankBlocks :=
  let blocksPerRank := numberOfBlocks.tdiv numberOfRanks
  let numRanksWithExtraBlock := numberOfBlocks.tmod numberOfRanks
  if rank < numRanksWithExtraBlock then
    ⟨idAdd blocksPerRank 1, idMul (idAdd blocksPerRank 1) rank⟩
  else
    ⟨blocksPerRank,
      idAdd (idMul numRanksWithExtraBlock (idAdd blocksPerRank 1))
        (idMul (idSub rank numRanksWithExtraBlock) blocksPerRank)⟩

/-- `blocksOnThisRank` of a rank. -/
def blocksOnThisRank (numberOfBlocks numberOfRanks rank : Int) : Int :=
  (GetPartitionedDataSet_split numberOfBlocks rank numberOfRanks).blocksOnThisRank

/-- `startBlockNo` of a rank. -/
def startBlockNo (numberOfBlocks numberOfRanks rank : Int) : Int :=
  (GetPartitionedDataSet_split numberOfBlocks rank numberOfRanks).startBlockNo

/-- The block numbers `startBlockNo + blockNo` that the loop
`for (blockNo = 0; blockNo < blocksOnThisRank; ++blockNo)` hands to `ComputeBlockExtents`, in
order. -/
def blocksOfRank (numberOfBlocks numberOfRanks rank : Int) : List Int :=
  (loopValues (blocksOnThisRank numberOfBlocks numberOfRanks rank)).map fun blockNo =>
    idAdd (startBlockNo numberOfBlocks numberOfRanks rank) blockNo

/-! ## `ComputeBlockExtents`: the block index -/

/-- The integer part of the loop of `ComputeBlockExtents`: for `d = 0, 1, 2`,
`blockIndex[d] = blockNo % blocksPerAxis[d]; blockNo /= blocksPerAxis[d];`.  Returns
`blockIndex` and the final `blockNo`.  `blockOrigin` and `blockSize`, which the source derives
from `blockIndex[d]` in `float` arithmetic, do not feed back into `blockIndex` or `blockNo` and
are not represented.  (`blocksPerAxis[d] = 0` is a division by zero in the source.) -/
def blockIndexLoop (blocksPerAxis : Id3) (blockNo : Int) : Id3 × Int :=
  [0, 1, 2].foldl
    (fun (st : Id3 × Int) (d : Fin 3) =>
      (st.1.set d (st.2.tmod (blocksPerAxis.get d)), st.2.tdiv (blocksPerAxis.get d)))
    (⟨0, 0, 0⟩, blockNo)

/-- The `blockIndex` component of the tuple returned by
`ComputeBlockExtents(globalSize, blocksPerAxis, blockNo)`; it does not depend on `globalSize`. -/
def ComputeBlockExtents_blockIndex (blocksPerAxis : Id3) (blockNo : Int) : Id3 :=
  (blockIndexLoop blocksPerAxis blockNo).1

/-! ## Theorems: `Image::Save` -/

/-- C1: for every Image, name and comment list, the non-const and the const overload of
`Image::Save` have the same effect: the encoder receives exactly one `Encode` call with the pixel
buffer from its first element, width `X.Max - X.Min + 1`, height `Y.Max - Y.Min + 1` and the
comment list unchanged, followed by one `Save` call with the given name, and the Image is left
unchanged. -/
theorem Save_hands_encoder (img : Image) (name : String) (comments : List String) :
    img.Save name comments = img.Save_const name comments ∧
    (img.Save name comments).encoder.calls =
      [EncoderCall.Encode ⟨⟨img.m_pixels, 0⟩, img.m_bounds.width, img.m_bounds.height, comments⟩,
       EncoderCall.Save name] ∧
    (img.Save_const name comments).encoder.calls =
      [EncoderCall.Encode ⟨⟨img.m_pixels, 0⟩, img.m_bounds.width, img.m_bounds.height, comments⟩,
       EncoderCall.Save name] ∧
    (img.Save name comments).image = img ∧
    (img.Save_const name comments).image = img := by
  refine ⟨rfl, rfl, rfl, rfl, rfl⟩

/-- C2 (as stated, refuted): no Bounds satisfies `min ≤ max` on both axes and has width 0 or
height 0, with width and height as `Image::Save` computes them. -/
theorem no_valid_empty_Bounds :
    ¬ ∃ b : Bounds, b.Valid ∧ (b.width = 0 ∨ b.height = 0) := by
  rintro ⟨b, ⟨hx, hy⟩, h⟩
  unfold Bounds.width Bounds.height at h
  omega

/-- C2 (amended): a Bounds with `min ≤ max` on both axes has width ≥ 1 and height ≥ 1; width 0
is reached exactly at `X.Max = X.Min - 1` and height 0 exactly at `Y.Max = Y.Min - 1`, outside
the invariant. -/
theorem valid_Bounds_extent (b : Bounds) (h : b.Valid) :
    1 ≤ b.width ∧ 1 ≤ b.height ∧
    (∀ c : Bounds, c.width = 0 ↔ c.X.Max = c.X.Min - 1) ∧
    (∀ c : Bounds, c.height = 0 ↔ c.Y.Max = c.Y.Min - 1) := by
  obtain ⟨hx, hy⟩ := h
  unfold Bounds.width Bounds.height
  refine ⟨by omega, by omega, fun c => by omega, fun c => by omega⟩

/-- Witness for C2 (amended): the one-pixel Bounds `[0,0] × [0,0]`. -/
theorem valid_Bounds_extent_witness :
    (⟨⟨0, 0⟩, ⟨0, 0⟩⟩ : Bounds).Valid ∧
    1 ≤ (⟨⟨0, 0⟩, ⟨0, 0⟩⟩ : Bounds).width ∧ 1 ≤ (⟨⟨0, 0⟩, ⟨0, 0⟩⟩ : Bounds).height :=
  have h : (⟨⟨0, 0⟩, ⟨0, 0⟩⟩ : Bounds).Valid := by decide
  ⟨h, (valid_Bounds_extent _ h).1, (valid_Bounds_extent _ h).2.1⟩

/-- The subscript `m_pixels[0]` of `Save` is inside the buffer of every Image that satisfies the
invariants and has width ≥ 1 and height ≥ 1. -/
theorem Save_subscript_inside_of_area (img : Image) (name : String) (comments : List String)
    (h : img.Invariant) (hw : 1 ≤ img.m_bounds.width) (hh : 1 ≤ img.m_bounds.height) :
    (img.Save name comments).SubscriptsInside ∧
    (img.Save_const name comments).SubscriptsInside := by
  obtain ⟨_, _, hlen⟩ := h
  have hpos : 0 < img.m_pixels.length := by
    have : 1 ≤ img.m_bounds.width * img.m_bounds.height := by nlinarith
    omega
  have key : ∀ i ∈ [0], i < img.m_pixels.length := by
    intro i hi
    simp only [List.mem_singleton] at hi
    omega
  exact ⟨key, key⟩

/-- C4 (as stated, refuted): the spec's "over" formula applied to `src = (1, 0, 0, 1/2)` and
`dst = (0, 0, 1, 1)` does not yield `(1/2, 0, 1/2, 1)`. -/
theorem over_literal_not_half :
    over ⟨1, 0, 0, 1/2⟩ ⟨0, 0, 1, 1⟩ ≠ ⟨1/2, 0, 1/2, 1⟩ := by
  intro h
  have hr := congrArg RGBA.r h
  simp only [over] at hr
  norm_num at hr

/-- C4 (amended): the spec's "over" formula applied to `src = (1, 0, 0, 1/2)` and
`dst = (0, 0, 1, 1)` yields `(1, 0, 1/2, 1)` in exact rational arithmetic. -/
theorem over_literal :
    over ⟨1, 0, 0, 1/2⟩ ⟨0, 0, 1, 1⟩ = ⟨1, 0, 1/2, 1⟩ := by
  simp only [over, RGBA.mk.injEq]
  norm_num

/-! ## Theorems: `ReadTestData` -/

theorem sizeTToInt_emod (n : Nat) : sizeTToInt n % 2 ^ 32 = (n : Int) % 2 ^ 32 := by
  unfold sizeTToInt
  split <;> push_cast <;> omega

theorem sizeTToInt_range (n : Nat) : -(2 ^ 31) ≤ sizeTToInt n ∧ sizeTToInt n < 2 ^ 31 := by
  unfold sizeTToInt
  split <;> push_cast <;> omega

theorem intToSizeT_emod (i : Int) : ((intToSizeT i : Nat) : Int) % 2 ^ 32 = i % 2 ^ 32 := by
  unfold intToSizeT
  rw [Int.toNat_of_nonneg (by omega)]
  omega

theorem accumulate_step_emod (acc : Int) (d : Nat) :
    sizeTToInt (multiplies_size_t (intToSizeT acc) d) % 2 ^ 32 = (acc * d) % 2 ^ 32 := by
  rw [sizeTToInt_emod]
  unfold multiplies_size_t
  have h1 : (((intToSizeT acc * d % 2 ^ 64 : Nat) : Int)) % 2 ^ 32
      = ((intToSizeT acc : Int) * d) % 2 ^ 32 := by
    push_cast
    omega
  rw [h1, Int.mul_emod, intToSizeT_emod, ← Int.mul_emod]

theorem accumulate_emod (dims : List Nat) (init : Int) :
    accumulate dims init % 2 ^ 32 = (init * (dims.prod : Nat)) % 2 ^ 32 := by
  induction dims generalizing init with
  | nil => simp [accumulate]
  | cons d ds ih =>
    have hstep : accumulate (d :: ds) init
        = accumulate ds (sizeTToInt (multiplies_size_t (intToSizeT init) d)) := by
      simp [accumulate]
    rw [hstep, ih, Int.mul_emod, accumulate_step_emod, ← Int.mul_emod]
    simp [List.prod_cons, mul_assoc]

theorem accumulate_range (dims : List Nat) (init : Int)
    (h : -(2 ^ 31) ≤ init ∧ init < 2 ^ 31) :
    -(2 ^ 31) ≤ accumulate dims init ∧ accumulate dims init < 2 ^ 31 := by
  induction dims generalizing init with
  | nil => simpa [accumulate] using h
  | cons d ds ih =>
    have hstep : accumulate (d :: ds) init
        = accumulate ds (sizeTToInt (multiplies_size_t (intToSizeT init) d)) := by
      simp [accumulate]
    rw [hstep]
    exact ih _ (sizeTToInt_range _)

/-- When the mathematical product of the dimensions is below `2^31`, the `int` accumulator
holds it exactly. -/
theorem accumulate_eq_prod (dims : List Nat) (h : dims.prod < 2 ^ 31) :
    intToSizeT (accumulate dims 1) = dims.prod := by
  have hm := accumulate_emod dims 1
  have hr := accumulate_range dims 1 (by omega)
  have hacc : accumulate dims 1 = (dims.prod : Nat) := by
    rw [one_mul] at hm
    have : ((dims.prod : Nat) : Int) < 2 ^ 31 := by exact_mod_cast h
    omega
  unfold intToSizeT
  rw [hacc]
  have : ((dims.prod : Nat) : Int) < 2 ^ 31 := by exact_mod_cast h
  omega

/-- With at least two header numbers whose product is below `2^31`, `ReadTestData` reaches the
dimension check with `nVertices` equal to the product of the dimensions. -/
theorem nVertices_eq_prod_of_small (dims : List Nat) (hlen : 2 ≤ dims.length)
    (h : dims.prod < 2 ^ 31) :
    ∃ st, ReadTestData_header dims = Except.ok st ∧ st.nVertices = dims.prod := by
  match dims, hlen with
  | d0 :: d1 :: rest, _ =>
    refine ⟨_, rfl, ?_⟩
    have hp : (d1 :: d0 :: rest).prod = (d0 :: d1 :: rest).prod := by
      simp [List.prod_cons]; ring
    show intToSizeT (accumulate (d1 :: d0 :: rest) 1) = _
    rw [accumulate_eq_prod _ (by rw [hp]; exact h), hp]

/-- C5 (the code at the failing input): for the header `65536 65536` the product of the
dimensions is `4294967296`, but the `int` accumulator of `std::accumulate` wraps and
`ReadTestData` reaches the dimension check with `nVertices = 0`; for `50000 50000` (product
`2500000000`) the accumulator turns negative and `nVertices = 18446744071914584320`. -/
theorem nVertices_wraps_in_int_accumulator :
    ReadTestData_header [65536, 65536] = Except.ok ⟨[65536, 65536], 2, 0⟩ ∧
    [65536, 65536].prod = 4294967296 ∧
    ReadTestData_header [50000, 50000] = Except.ok ⟨[50000, 50000], 2, 18446744071914584320⟩ ∧
    [50000, 50000].prod = 2500000000 := by
  refine ⟨by rfl, by decide, by rfl, by decide⟩

/-- With two or more header numbers no subscript leaves `dims`, and `ReadTestData` returns
`false` exactly when the count, reduced modulo `65536` by the cast to `unsigned short`, is below
2 or above 3. -/
theorem ReadTestData_of_two_or_more (dims : List Nat) (hlen : 2 ≤ dims.length) :
    ReadTestData dims =
      if dims.length % 65536 < 2 ∨ dims.length % 65536 > 3 then ReadOutcome.returned false
      else ReadOutcome.returned true := by
  match dims, hlen with
  | d0 :: d1 :: rest, _ =>
    simp [ReadTestData, ReadTestData_header, swapDims]

/-- With between 2 and 65535 header numbers, `ReadTestData` returns `false` exactly when there
are more than 3 of them. -/
theorem ReadTestData_false_iff (dims : List Nat) (hlen : 2 ≤ dims.length)
    (hshort : dims.length < 65536) :
    ReadTestData dims = ReadOutcome.returned false ↔ 3 < dims.length := by
  rw [ReadTestData_of_two_or_more dims hlen, Nat.mod_eq_of_lt hshort]
  by_cases h : 3 < dims.length
  · simp [h]
  · have h2 : ¬ (dims.length < 2 ∨ dims.length > 3) := by omega
    simp [h, hlen]

theorem countSplitsFrom_fuel (f1 : Nat) : ∀ (f2 : Nat) (c n : Int), c ≤ f1 → c ≤ f2 →
    countSplitsFrom f1 c n = countSplitsFrom f2 c n := by
  induction f1 with
  | zero =>
    intro f2 c n h1 _
    cases f2 with
    | zero => rfl
    | succ j =>
      have hc : ¬ c > 1 := by simp at h1; omega
      simp [countSplitsFrom, hc]
  | succ k ih =>
    intro f2 c n h1 h2
    cases f2 with
    | zero =>
      have hc : ¬ c > 1 := by simp at h2; omega
      simp [countSplitsFrom, hc]
    | succ j =>
      by_cases hc : c > 1
      · have hd : c.tdiv 2 = c / 2 := Int.tdiv_eq_ediv (by omega) (by omega)
        simp only [countSplitsFrom, hc, if_true]
        split
        · rfl
        · apply ih
          · rw [hd]; push_cast at h1; omega
          · rw [hd]; push_cast at h2; omega
      · simp [countSplitsFrom, hc]

/-- The loop equation of the first loop: `countSplits` is one test of the loop condition, one
round of the body, and the loop again. -/
theorem countSplits_loop (c n : Int) :
    countSplits c n =
      if c > 1 then
        if c.tmod 2 ≠ 0 then (n, false) else countSplits (c.tdiv 2) (n + 1)
      else (n, true) := by
  unfold countSplits
  by_cases hc : c > 1
  · obtain ⟨k, hk⟩ : ∃ k, c.toNat = k + 1 := ⟨c.toNat - 1, by omega⟩
    have hd : c.tdiv 2 = c / 2 := Int.tdiv_eq_ediv (by omega) (by omega)
    rw [hk]
    simp only [countSplitsFrom, hc, if_true]
    split
    · rfl
    · apply countSplitsFrom_fuel
      · rw [hd]; omega
      · rw [hd]; omega
  · cases h : c.toNat <;> simp [countSplitsFrom, hc]

theorem countSplits_pow (n : Nat) : ∀ m : Int, countSplits (2 ^ n) m = (m + n, true) := by
  induction n with
  | zero => intro m; rw [countSplits_loop]; simp
  | succ k ih =>
    intro m
    have hpos : (0 : Int) < 2 ^ k := by positivity
    have hc : (2 : Int) ^ (k + 1) > 1 := by rw [pow_succ]; omega
    have hmod : ((2 : Int) ^ (k + 1)).tmod 2 = 0 := by
      rw [Int.tmod_eq_emod (by omega) (by omega), pow_succ]; omega
    have hdiv : ((2 : Int) ^ (k + 1)).tdiv 2 = 2 ^ k := by
      rw [Int.tdiv_eq_ediv (by omega) (by omega), pow_succ]; omega
    rw [countSplits_loop]
    simp only [hc, if_true, hmod, ne_eq, not_true_eq_false, if_false, hdiv]
    rw [ih]
    push_cast
    congr 1
    ring

theorem countSplits_true_pow (f : Nat) : ∀ (c m : Int), 1 ≤ c → c ≤ f →
    (countSplits c m).2 = true → ∃ n : Nat, c = 2 ^ n := by
  induction f with
  | zero => intro c m h1 h2; simp at h2; omega
  | succ k ih =>
    intro c m h1 h2 h
    rw [countSplits_loop] at h
    by_cases hc : c > 1
    · have hd : c.tdiv 2 = c / 2 := Int.tdiv_eq_ediv (by omega) (by omega)
      have hm : c.tmod 2 = c % 2 := Int.tmod_eq_emod (by omega) (by omega)
      simp only [hc, if_true] at h
      by_cases hodd : c.tmod 2 ≠ 0
      · simp [hodd] at h
      · simp only [hodd, if_false] at h
        obtain ⟨n, hn⟩ := ih (c.tdiv 2) (m + 1) (by rw [hd]; omega)
          (by rw [hd]; push_cast at h2; omega) h
        refine ⟨n + 1, ?_⟩
        rw [pow_succ, ← hn, hd]
        rw [hm] at hodd
        omega
    · exact ⟨0, by simp; omega⟩

/-- C7: for every `numberOfBlocks ≥ 1`, the first loop of `ComputeNumberOfBlocksPerAxis` leaves
`isPowerOfTwo = true` (and the power-of-two branch is taken) if and only if
`numberOfBlocks = 2^n` for a natural `n`; otherwise the "not a power of two" branch returns
`{1, 1, 1}` with `numberOfBlocks` on the split axis; and for `numberOfBlocks = 2^n` the counted
`numSplits` is `n`. -/
theorem powerOfTwo_branch_iff (globalSize : Id3) (asserts : Bool) (numberOfBlocks : Int)
    (h : 1 ≤ numberOfBlocks) :
    ((countSplits numberOfBlocks 0).2 = true ↔ ∃ n : Nat, numberOfBlocks = 2 ^ n) ∧
    (∀ n : Nat, numberOfBlocks = 2 ^ n → (countSplits numberOfBlocks 0).1 = n) ∧
    ((∃ n : Nat, numberOfBlocks = 2 ^ n) →
      ComputeNumberOfBlocksPerAxis asserts globalSize numberOfBlocks =
        match splitLoop asserts (countSplits numberOfBlocks 0).1.toNat globalSize ⟨0, 0, 0⟩ with
        | none => none
        | some s => some ⟨shiftOne s.c0, shiftOne s.c1, shiftOne s.c2⟩) ∧
    ((¬ ∃ n : Nat, numberOfBlocks = 2 ^ n) →
      ComputeNumberOfBlocksPerAxis asserts globalSize numberOfBlocks =
        some ((⟨1, 1, 1⟩ : Id3).set (findSplitAxis globalSize) numberOfBlocks)) := by
  have hiff : (countSplits numberOfBlocks 0).2 = true ↔ ∃ n : Nat, numberOfBlocks = 2 ^ n := by
    constructor
    · intro hp
      exact countSplits_true_pow numberOfBlocks.toNat numberOfBlocks 0 h (by omega) hp
    · rintro ⟨n, rfl⟩
      rw [countSplits_pow]
  refine ⟨hiff, ?_, ?_, ?_⟩
  · rintro n rfl
    rw [countSplits_pow]
    simp
  · intro hp
    have := hiff.mpr hp
    simp [ComputeNumberOfBlocksPerAxis, this]
  · intro hp
    have : (countSplits numberOfBlocks 0).2 = false := by
      cases hb : (countSplits numberOfBlocks 0).2
      · rfl
      · exact absurd (hiff.mp hb) hp
    simp [ComputeNumberOfBlocksPerAxis, this]

/-- Witness for C7: `numberOfBlocks = 8 = 2^3`. -/
theorem powerOfTwo_branch_iff_witness :
    (1 : Int) ≤ 8 ∧
    ((countSplits 8 0).2 = true ↔ ∃ n : Nat, (8 : Int) = 2 ^ n) ∧
    (∀ n : Nat, (8 : Int) = 2 ^ n → (countSplits 8 0).1 = n) :=
  ⟨by decide, (powerOfTwo_branch_iff ⟨4, 4, 4⟩ true 8 (by decide)).1,
    (powerOfTwo_branch_iff ⟨4, 4, 4⟩ true 8 (by decide)).2.1⟩

theorem findSplitAxis_eq (g : Id3) :
    findSplitAxis g =
      if g.c2 > g.get (if g.c1 > g.c0 then 1 else 0) then 2
      else if g.c1 > g.c0 then 1 else 0 := by
  simp [findSplitAxis, Id3.get]

/-- The split axis holds the largest extent. -/
theorem findSplitAxis_largest (g : Id3) :
    g.c0 ≤ g.get (findSplitAxis g) ∧ g.c1 ≤ g.get (findSplitAxis g) ∧
    g.c2 ≤ g.get (findSplitAxis g) := by
  rw [findSplitAxis_eq]
  by_cases h1 : g.c1 > g.c0
  · by_cases h2 : g.c2 > g.c1
    · simp [h1, h2, Id3.get]; omega
    · simp [h1, h2, Id3.get]; omega
  · by_cases h2 : g.c2 > g.c0
    · simp [h1, h2, Id3.get]; omega
    · simp [h1, h2, Id3.get]; omega

/-- The split axis is the first one that holds the largest extent. -/
theorem findSplitAxis_first (g : Id3) (d : Fin 3) (hd : d < findSplitAxis g) :
    g.get d < g.get (findSplitAxis g) := by
  rw [findSplitAxis_eq] at hd ⊢
  by_cases h1 : g.c1 > g.c0
  · by_cases h2 : g.c2 > g.c1
    · simp only [h1, h2, if_true, Id3.get] at hd ⊢
      fin_cases d <;> simp_all [Id3.get]
      omega
    · simp only [h1, h2, if_true, if_false, Id3.get] at hd ⊢
      fin_cases d <;> simp_all [Id3.get]
  · by_cases h2 : g.c2 > g.c0
    · simp only [h1, h2, if_true, if_false, Id3.get] at hd ⊢
      fin_cases d <;> simp_all [Id3.get]
      omega
    · simp only [h1, h2, if_false, Id3.get] at hd ⊢
      fin_cases d <;> simp_all [Id3.get]

theorem Id3.sum_set (s : Id3) (d : Fin 3) :
    (s.set d (s.get d + 1)).c0 + (s.set d (s.get d + 1)).c1 + (s.set d (s.get d + 1)).c2
      = s.c0 + s.c1 + s.c2 + 1 ∧
    s.c0 ≤ (s.set d (s.get d + 1)).c0 ∧ s.c1 ≤ (s.set d (s.get d + 1)).c1 ∧
    s.c2 ≤ (s.set d (s.get d + 1)).c2 := by
  fin_cases d <;> simp [Id3.set, Id3.get] <;> omega

/-- The split loop distributes exactly `numSplits` increments over the three counters. -/
theorem splitLoop_sum (asserts : Bool) (k : Nat) : ∀ (g s s' : Id3),
    splitLoop asserts k g s = some s' →
    s'.c0 + s'.c1 + s'.c2 = s.c0 + s.c1 + s.c2 + k ∧ s.c0 ≤ s'.c0 ∧ s.c1 ≤ s'.c1 ∧
      s.c2 ≤ s'.c2 := by
  induction k with
  | zero =>
    intro g s s' h
    simp only [splitLoop, Option.some.injEq] at h
    subst h
    simp
  | succ k ih =>
    intro g s s' h
    simp only [splitLoop] at h
    split at h
    · exact absurd h (by simp)
    · obtain ⟨h1, h2, h3, h4⟩ := ih _ _ _ h
      obtain ⟨e1, e2, e3, e4⟩ := Id3.sum_set s (findSplitAxis g)
      refine ⟨?_, by omega, by omega, by omega⟩
      push_cast
      omega

/-- With assertions compiled out the split loop always runs to its end. -/
theorem splitLoop_release (k : Nat) : ∀ (g s : Id3), (splitLoop false k g s).isSome = true := by
  induction k with
  | zero => intro g s; rfl
  | succ k ih =>
    intro g s
    simp only [splitLoop, Bool.false_and, Bool.false_eq_true, if_false]
    exact ih _ _

theorem wrapId_of_IsId (x : Int) (h : IsId x) : wrapId x = x := by
  unfold IsId at h
  unfold wrapId
  omega

theorem shiftOne_eq (s : Int) (h0 : 0 ≤ s) (h : s ≤ 62) : shiftOne s = 2 ^ s.toNat := by
  unfold shiftOne
  apply wrapId_of_IsId
  have hle : s.toNat ≤ 62 := by omega
  have h1 : (2 : Int) ^ s.toNat ≤ 2 ^ 62 := pow_le_pow_right₀ (by norm_num) hle
  have h2 : (0 : Int) < 2 ^ s.toNat := by positivity
  unfold IsId
  constructor
  · omega
  · calc (2 : Int) ^ s.toNat ≤ 2 ^ 62 := h1
      _ < 2 ^ 63 := by norm_num

/-- C10: for every `numberOfBlocks` with `1 ≤ numberOfBlocks < 2^63` (a positive `vtkm::Id`) and
every `globalSize`, with assertions compiled in or out, whenever
`ComputeNumberOfBlocksPerAxis` returns a vector, the product of its three components is
`numberOfBlocks` and every component is at least 1; with assertions compiled out it always
returns. -/
theorem blocksPerAxis_product (asserts : Bool) (globalSize : Id3) (numberOfBlocks : Int)
    (h1 : 1 ≤ numberOfBlocks) (hId : numberOfBlocks < 2 ^ 63) :
    (∀ blocksPerAxis, ComputeNumberOfBlocksPerAxis asserts globalSize numberOfBlocks
        = some blocksPerAxis →
      blocksPerAxis.c0 * blocksPerAxis.c1 * blocksPerAxis.c2 = numberOfBlocks ∧
      1 ≤ blocksPerAxis.c0 ∧ 1 ≤ blocksPerAxis.c1 ∧ 1 ≤ blocksPerAxis.c2) ∧
    (ComputeNumberOfBlocksPerAxis false globalSize numberOfBlocks).isSome = true := by
  by_cases hp : (countSplits numberOfBlocks 0).2 = true
  · obtain ⟨n, hn⟩ := countSplits_true_pow numberOfBlocks.toNat numberOfBlocks 0 h1
      (by omega) hp
    subst hn
    have hn62 : n ≤ 62 := by
      by_contra hcon
      have : (2 : Int) ^ 63 ≤ 2 ^ n := pow_le_pow_right₀ (by norm_num) (by omega)
      omega
    have hcs : countSplits (2 ^ n) 0 = ((n : Int), true) := by
      rw [countSplits_pow]; simp
    constructor
    · intro b hb
      simp only [ComputeNumberOfBlocksPerAxis, hcs, if_true, Int.toNat_ofNat] at hb
      cases hs : splitLoop asserts n globalSize ⟨0, 0, 0⟩ with
      | none => rw [hs] at hb; exact absurd hb (by simp)
      | some s =>
        rw [hs] at hb
        simp only [Option.some.injEq] at hb
        obtain ⟨hsum, g0, g1, g2⟩ := splitLoop_sum asserts n globalSize ⟨0, 0, 0⟩ s hs
        dsimp only at hsum g0 g1 g2
        simp only [zero_add] at hsum
        rw [← hb]
        simp only
        rw [shiftOne_eq s.c0 g0 (by omega), shiftOne_eq s.c1 g1 (by omega),
          shiftOne_eq s.c2 g2 (by omega)]
        refine ⟨?_, ?_, ?_, ?_⟩
        · rw [← pow_add, ← pow_add]
          congr 1
          omega
        · exact one_le_pow₀ (by norm_num)
        · exact one_le_pow₀ (by norm_num)
        · exact one_le_pow₀ (by norm_num)
    · simp only [ComputeNumberOfBlocksPerAxis, hcs, if_true, Int.toNat_ofNat]
      have := splitLoop_release n globalSize ⟨0, 0, 0⟩
      cases hs : splitLoop false n globalSize ⟨0, 0, 0⟩ with
      | none => rw [hs] at this; exact absurd this (by simp)
      | some s => rfl
  · have hf : (countSplits numberOfBlocks 0).2 = false := by
      cases hb : (countSplits numberOfBlocks 0).2
      · rfl
      · exact absurd hb hp
    constructor
    · intro b hb
      simp only [ComputeNumberOfBlocksPerAxis, hf, Bool.false_eq_true, if_false,
        Option.some.injEq] at hb
      rw [← hb]
      generalize findSplitAxis globalSize = a
      fin_cases a <;> simp [Id3.set] <;> omega
    · simp [ComputeNumberOfBlocksPerAxis, hf]

/-- Witness for C10: `globalSize = {10, 20, 30}`, `numberOfBlocks = 8` gives `{1, 2, 4}`. -/
theorem blocksPerAxis_product_witness :
    (1 : Int) ≤ 8 ∧ (8 : Int) < 2 ^ 63 ∧
    ComputeNumberOfBlocksPerAxis true ⟨10, 20, 30⟩ 8 = some ⟨1, 2, 4⟩ ∧
    (1 : Int) * 2 * 4 = 8 :=
  ⟨by decide, by decide, by decide,
    ((blocksPerAxis_product true ⟨10, 20, 30⟩ 8 (by decide) (by decide)).1 ⟨1, 2, 4⟩
      (by decide)).1⟩

theorem halve_log (x : Int) (h : 1 < x) :
    1 ≤ x.tdiv 2 ∧ Nat.log 2 (x.tdiv 2).toNat + 1 = Nat.log 2 x.toNat := by
  have hd : x.tdiv 2 = x / 2 := Int.tdiv_eq_ediv (by omega) (by omega)
  have ht : (x / 2).toNat = x.toNat / 2 := by omega
  rw [hd, ht, Nat.log_div_base]
  have : 0 < Nat.log 2 x.toNat := Nat.log_pos (by norm_num) (by omega)
  constructor <;> omega

theorem log_of_le_one (x : Int) (h : x ≤ 1) : Nat.log 2 x.toNat = 0 := by
  rw [Nat.log_eq_zero_iff]
  left
  omega

theorem le_log_of_pow_le (n : Nat) (x : Int) (h : (2 : Int) ^ n ≤ x) :
    n ≤ Nat.log 2 x.toNat := by
  have hpos : (0 : Int) < 2 ^ n := by positivity
  have hx : (2 : Nat) ^ n ≤ x.toNat := by
    rw [Int.le_toNat (by omega)]
    push_cast
    exact h
  exact (Nat.pow_le_iff_le_log (by norm_num) (by omega)).mp hx

/-- With all extents at least 1, the assertion of the split loop holds in each of
`numSplits` rounds exactly when `numSplits` does not exceed the sum of the floored binary
logarithms of the extents. -/
theorem splitLoop_asserts_iff (k : Nat) : ∀ (g s : Id3), 1 ≤ g.c0 → 1 ≤ g.c1 → 1 ≤ g.c2 →
    ((splitLoop true k g s).isSome = true ↔
      k ≤ Nat.log 2 g.c0.toNat + Nat.log 2 g.c1.toNat + Nat.log 2 g.c2.toNat) := by
  induction k with
  | zero => intro g s _ _ _; simp [splitLoop]
  | succ k ih =>
    intro g s h0 h1 h2
    obtain ⟨m0, m1, m2⟩ := findSplitAxis_largest g
    simp only [splitLoop, Bool.true_and]
    generalize findSplitAxis g = a at m0 m1 m2
    by_cases hgt : g.get a > 1
    · simp only [hgt, decide_True, Bool.not_true, Bool.false_eq_true, if_false]
      obtain ⟨hh, hl⟩ := halve_log (g.get a) hgt
      fin_cases a
      · simp only [Id3.get, Id3.set] at hh hl ⊢
        rw [ih ⟨g.c0.tdiv 2, g.c1, g.c2⟩ _ hh h1 h2]
        dsimp only
        omega
      · simp only [Id3.get, Id3.set] at hh hl ⊢
        rw [ih ⟨g.c0, g.c1.tdiv 2, g.c2⟩ _ h0 hh h2]
        dsimp only
        omega
      · simp only [Id3.get, Id3.set] at hh hl ⊢
        rw [ih ⟨g.c0, g.c1, g.c2.tdiv 2⟩ _ h0 h1 hh]
        dsimp only
        omega
    · have e0 := log_of_le_one g.c0 (by omega)
      have e1 := log_of_le_one g.c1 (by omega)
      have e2 := log_of_le_one g.c2 (by omega)
      simp [hgt, e0, e1, e2]

/-- C8: for every `globalSize` with all three extents at least 1 and every
`numberOfBlocks = 2^n`, with assertions compiled in `ComputeNumberOfBlocksPerAxis` passes
`VTKM_ASSERT(globalSize[splitAxis] > 1)` at every one of its `n` splits (and returns) if and only
if `n ≤ ⌊log2 globalSize[0]⌋ + ⌊log2 globalSize[1]⌋ + ⌊log2 globalSize[2]⌋`; in particular it
does whenever `numberOfBlocks` does not exceed the largest extent. -/
theorem split_asserts_iff_log (globalSize : Id3) (n : Nat)
    (h0 : 1 ≤ globalSize.c0) (h1 : 1 ≤ globalSize.c1) (h2 : 1 ≤ globalSize.c2) :
    ((ComputeNumberOfBlocksPerAxis true globalSize (2 ^ n)).isSome = true ↔
      n ≤ Nat.log 2 globalSize.c0.toNat + Nat.log 2 globalSize.c1.toNat
            + Nat.log 2 globalSize.c2.toNat) ∧
    ((splitLoop true (countSplits (2 ^ n) 0).1.toNat globalSize ⟨0, 0, 0⟩).isSome = true ↔
      n ≤ Nat.log 2 globalSize.c0.toNat + Nat.log 2 globalSize.c1.toNat
            + Nat.log 2 globalSize.c2.toNat) ∧
    ((2 : Int) ^ n ≤ max globalSize.c0 (max globalSize.c1 globalSize.c2) →
      (ComputeNumberOfBlocksPerAxis true globalSize (2 ^ n)).isSome = true) := by
  have hcs : countSplits (2 ^ n) 0 = ((n : Int), true) := by
    rw [countSplits_pow]; simp
  have hloop := splitLoop_asserts_iff n globalSize ⟨0, 0, 0⟩ h0 h1 h2
  have hfun : (ComputeNumberOfBlocksPerAxis true globalSize (2 ^ n)).isSome
      = (splitLoop true n globalSize ⟨0, 0, 0⟩).isSome := by
    simp only [ComputeNumberOfBlocksPerAxis, hcs, if_true, Int.toNat_ofNat]
    cases splitLoop true n globalSize ⟨0, 0, 0⟩ <;> rfl
  refine ⟨by rw [hfun]; exact hloop, by rw [hcs]; exact hloop, ?_⟩
  intro hmax
  rw [hfun, hloop]
  have l0 := le_log_of_pow_le n globalSize.c0
  have l1 := le_log_of_pow_le n globalSize.c1
  have l2 := le_log_of_pow_le n globalSize.c2
  rcases le_max_iff.mp hmax with h | h
  · have := l0 h; omega
  · rcases le_max_iff.mp h with h | h
    · have := l1 h; omega
    · have := l2 h; omega

/-- Witness for C8: `globalSize = {10, 20, 30}` and `numberOfBlocks = 8 = 2^3`. -/
theorem split_asserts_iff_log_witness :
    (1 : Int) ≤ (⟨10, 20, 30⟩ : Id3).c0 ∧ (1 : Int) ≤ (⟨10, 20, 30⟩ : Id3).c1 ∧
    (1 : Int) ≤ (⟨10, 20, 30⟩ : Id3).c2 ∧
    ((ComputeNumberOfBlocksPerAxis true ⟨10, 20, 30⟩ (2 ^ 3)).isSome = true ↔
      3 ≤ Nat.log 2 (⟨10, 20, 30⟩ : Id3).c0.toNat + Nat.log 2 (⟨10, 20, 30⟩ : Id3).c1.toNat
            + Nat.log 2 (⟨10, 20, 30⟩ : Id3).c2.toNat) :=
  ⟨by decide, by decide, by decide,
    (split_asserts_iff_log ⟨10, 20, 30⟩ 3 (by decide) (by decide) (by decide)).1⟩

/-! ## Theorems: `CreateSubDataSet` -/

theorem mem_loopValues (n x : Int) : x ∈ loopValues n ↔ 0 ≤ x ∧ x < n := by
  unfold loopValues
  simp only [List.mem_map, List.mem_range]
  constructor
  · rintro ⟨k, hk, rfl⟩
    simp only [Int.ofNat_eq_coe]
    omega
  · rintro ⟨h0, h1⟩
    exact ⟨x.toNat, by omega, by simp only [Int.ofNat_eq_coe]; omega⟩

theorem mem_loopIterations (blockSize it : Id3) :
    it ∈ loopIterations blockSize ↔
      (0 ≤ it.c0 ∧ it.c0 < blockSize.c0) ∧ (0 ≤ it.c1 ∧ it.c1 < blockSize.c1) ∧
        (0 ≤ it.c2 ∧ it.c2 < blockSize.c2) := by
  unfold loopIterations
  simp only [List.mem_flatMap, List.mem_map, mem_loopValues]
  constructor
  · rintro ⟨z, hz, y, hy, x, hx, rfl⟩
    exact ⟨hx, hy, hz⟩
  · rintro ⟨hx, hy, hz⟩
    exact ⟨it.c2, hz, it.c1, hy, it.c0, hx, rfl⟩

/-- Row-major index arithmetic: with `0 ≤ x < a`, `0 ≤ y < b`, `0 ≤ z < c`, the partial results
of `(z * b + y) * a + x` are non-negative and the index is below `a * b * c`. -/
theorem rowMajor_bounds (a b c x y z : Int) (hx0 : 0 ≤ x) (hx : x < a) (hy0 : 0 ≤ y)
    (hy : y < b) (hz0 : 0 ≤ z) (hz : z < c) :
    0 ≤ z * b ∧ z * b + y < b * c ∧ 0 ≤ (z * b + y) * a ∧
      (z * b + y) * a + x < a * b * c ∧ (z * b + y) * a ≤ (z * b + y) * a + x := by
  have hb : 0 < b := by omega
  have ha : 0 < a := by omega
  have h1 : 0 ≤ z * b := mul_nonneg hz0 (by omega)
  have h2 : z * b + y < b * c := by
    have : (z + 1) * b ≤ c * b := mul_le_mul_of_nonneg_right (by omega) (by omega)
    nlinarith
  have h3 : 0 ≤ (z * b + y) * a := mul_nonneg (by omega) (by omega)
  have h4 : (z * b + y) * a + x < a * b * c := by
    have : (z * b + y + 1) * a ≤ (b * c) * a := mul_le_mul_of_nonneg_right (by omega) (by omega)
    nlinarith
  exact ⟨h1, h2, h3, h4, by omega⟩
theorem copyLoop_fold (globalSize blockOrigin blockSize : Id3) (numberOfValues : Int)
    (l : List Id3) : ∀ (sets : List (Int × Int)),
    (∀ it ∈ l, assertsHold globalSize blockOrigin blockSize numberOfValues it) →
    l.foldl
      (fun acc outArrIdx =>
        match acc with
        | none => none
        | some sets =>
          if assertsHold globalSize blockOrigin blockSize numberOfValues outArrIdx then
            some (sets ++ [(outIdx blockSize outArrIdx, inIdx globalSize blockOrigin outArrIdx)])
          else none)
      (some sets) =
    some (sets ++ l.map fun it => (outIdx blockSize it, inIdx globalSize blockOrigin it)) := by
  induction l with
  | nil => intro sets _; simp
  | cons it l ih =>
    intro sets h
    have hit := h it (List.mem_cons_self _ _)
    simp only [List.foldl_cons, hit, if_true]
    rw [ih _ (fun j hj => h j (List.mem_cons_of_mem _ hj))]
    simp

theorem mul3_bounds (a b c : Int) (ha : 1 ≤ a) (hb : 1 ≤ b) (hc : 1 ≤ c) :
    0 ≤ a * b ∧ a * b ≤ a * b * c ∧ b * c ≤ a * b * c ∧ a ≤ a * b * c ∧ b ≤ b * c ∧
      c ≤ b * c := by
  have hab : 0 ≤ a * b := mul_nonneg (by omega) (by omega)
  have hbc : 0 ≤ b * c := mul_nonneg (by omega) (by omega)
  have h1 : a * b ≤ a * b * c := le_mul_of_one_le_right hab hc
  have h2 : b * c ≤ a * b * c := by
    rw [mul_assoc]
    exact le_mul_of_one_le_left hbc ha
  have h3 : a ≤ a * b := le_mul_of_one_le_right (by omega) hb
  have h4 : b ≤ b * c := le_mul_of_one_le_right (by omega) hc
  have h5 : c ≤ b * c := le_mul_of_one_le_left (by omega) hb
  exact ⟨hab, h1, h2, by omega, h4, h5⟩

theorem mul3_mono (a b c x y z : Int) (ha : 0 ≤ a) (hb : 0 ≤ b) (hc : 0 ≤ c)
    (hx : a ≤ x) (hy : b ≤ y) (hz : c ≤ z) : a * b * c ≤ x * y * z := by
  have e1 : a * b ≤ x * y := mul_le_mul hx hy hb (by omega)
  exact mul_le_mul e1 hz hc (mul_nonneg (by omega) (by omega))

/-- C9: for every `globalSize`, `blockOrigin` and `blockSize` with `blockOrigin[d] ≥ 0`,
`blockSize[d] ≥ 0` and `blockOrigin[d] + blockSize[d] ≤ globalSize[d]` on each axis, and an
input field of `globalSize[0]*globalSize[1]*globalSize[2]` values (a `vtkm::Id`, so below
`2^63`), on every iteration of the triple loop of `CreateSubDataSet` both assertions hold,
`0 ≤ inIdx < numberOfValues` and `0 ≤ outIdx < nOutValues`, where no 64-bit operation wraps:
`inIdx = ((z+oz)*globalSize[1] + (y+oy))*globalSize[0] + (x+ox)`,
`outIdx = (z*blockSize[1] + y)*blockSize[0] + x` and
`nOutValues = blockSize[0]*blockSize[1]*blockSize[2]`; hence the loop runs to its end. -/
theorem copy_indices_inside (globalSize blockOrigin blockSize : Id3) (numberOfValues : Int)
    (ho0 : 0 ≤ blockOrigin.c0) (ho1 : 0 ≤ blockOrigin.c1) (ho2 : 0 ≤ blockOrigin.c2)
    (hb0 : 0 ≤ blockSize.c0) (hb1 : 0 ≤ blockSize.c1) (hb2 : 0 ≤ blockSize.c2)
    (hs0 : blockOrigin.c0 + blockSize.c0 ≤ globalSize.c0)
    (hs1 : blockOrigin.c1 + blockSize.c1 ≤ globalSize.c1)
    (hs2 : blockOrigin.c2 + blockSize.c2 ≤ globalSize.c2)
    (hN : numberOfValues = globalSize.c0 * globalSize.c1 * globalSize.c2)
    (hId : numberOfValues < 2 ^ 63) :
    (∀ it ∈ loopIterations blockSize,
      assertsHold globalSize blockOrigin blockSize numberOfValues it ∧
      inIdx globalSize blockOrigin it =
        ((it.c2 + blockOrigin.c2) * globalSize.c1 + (it.c1 + blockOrigin.c1)) * globalSize.c0
          + (it.c0 + blockOrigin.c0) ∧
      outIdx blockSize it = (it.c2 * blockSize.c1 + it.c1) * blockSize.c0 + it.c0 ∧
      nOutValues blockSize = blockSize.c0 * blockSize.c1 * blockSize.c2) ∧
    (copyLoop globalSize blockOrigin blockSize numberOfValues).isSome = true := by
  have main : ∀ it ∈ loopIterations blockSize,
      assertsHold globalSize blockOrigin blockSize numberOfValues it ∧
      inIdx globalSize blockOrigin it =
        ((it.c2 + blockOrigin.c2) * globalSize.c1 + (it.c1 + blockOrigin.c1)) * globalSize.c0
          + (it.c0 + blockOrigin.c0) ∧
      outIdx blockSize it = (it.c2 * blockSize.c1 + it.c1) * blockSize.c0 + it.c0 ∧
      nOutValues blockSize = blockSize.c0 * blockSize.c1 * blockSize.c2 := by
    intro it hit
    obtain ⟨⟨hx0, hx⟩, ⟨hy0, hy⟩, ⟨hz0, hz⟩⟩ := (mem_loopIterations blockSize it).mp hit
    obtain ⟨G0, G1, G2⟩ := globalSize
    obtain ⟨o0, o1, o2⟩ := blockOrigin
    obtain ⟨b0, b1, b2⟩ := blockSize
    obtain ⟨x, y, z⟩ := it
    dsimp only at *
    -- the global index
    obtain ⟨r1, r2, r3, r4, r5⟩ := rowMajor_bounds G0 G1 G2 (x + o0) (y + o1) (z + o2)
      (by omega) (by omega) (by omega) (by omega) (by omega) (by omega)
    obtain ⟨_, _, hG12, hG0, hG1, hG2⟩ := mul3_bounds G0 G1 G2 (by omega) (by omega) (by omega)
    -- the block index
    obtain ⟨q1, q2, q3, q4, q5⟩ := rowMajor_bounds b0 b1 b2 x y z hx0 hx hy0 hy hz0 hz
    obtain ⟨hb00, hb01, hb12, _, _, _⟩ := mul3_bounds b0 b1 b2 (by omega) (by omega) (by omega)
    have hb012 : b0 * b1 * b2 ≤ G0 * G1 * G2 :=
      mul3_mono b0 b1 b2 G0 G1 G2 hb0 hb1 hb2 (by omega) (by omega) (by omega)
    have ex : idAdd x o0 = x + o0 := wrapId_of_IsId _ ⟨by omega, by omega⟩
    have ey : idAdd y o1 = y + o1 := wrapId_of_IsId _ ⟨by omega, by omega⟩
    have ez : idAdd z o2 = z + o2 := wrapId_of_IsId _ ⟨by omega, by omega⟩
    have i1 : idMul (z + o2) G1 = (z + o2) * G1 := wrapId_of_IsId _ ⟨by omega, by omega⟩
    have i2 : idAdd ((z + o2) * G1) (y + o1) = (z + o2) * G1 + (y + o1) :=
      wrapId_of_IsId _ ⟨by omega, by omega⟩
    have i3 : idMul ((z + o2) * G1 + (y + o1)) G0 = ((z + o2) * G1 + (y + o1)) * G0 :=
      wrapId_of_IsId _ ⟨by omega, by omega⟩
    have i4 : idAdd (((z + o2) * G1 + (y + o1)) * G0) (x + o0)
        = ((z + o2) * G1 + (y + o1)) * G0 + (x + o0) :=
      wrapId_of_IsId _ ⟨by omega, by omega⟩
    have j1 : idMul z b1 = z * b1 := wrapId_of_IsId _ ⟨by omega, by omega⟩
    have j2 : idAdd (z * b1) y = z * b1 + y := wrapId_of_IsId _ ⟨by omega, by omega⟩
    have j3 : idMul (z * b1 + y) b0 = (z * b1 + y) * b0 :=
      wrapId_of_IsId _ ⟨by omega, by omega⟩
    have j4 : idAdd ((z * b1 + y) * b0) x = (z * b1 + y) * b0 + x :=
      wrapId_of_IsId _ ⟨by omega, by omega⟩
    have n1 : idMul b0 b1 = b0 * b1 := wrapId_of_IsId _ ⟨by omega, by omega⟩
    have n2 : idMul (b0 * b1) b2 = b0 * b1 * b2 := wrapId_of_IsId _ ⟨by omega, by omega⟩
    have hin : inIdx ⟨G0, G1, G2⟩ ⟨o0, o1, o2⟩ ⟨x, y, z⟩
        = ((z + o2) * G1 + (y + o1)) * G0 + (x + o0) := by
      simp only [inIdx, ex, ey, ez, i1, i2, i3, i4]
    have hout : outIdx ⟨b0, b1, b2⟩ ⟨x, y, z⟩ = (z * b1 + y) * b0 + x := by
      simp only [outIdx, j1, j2, j3, j4]
    have hn : nOutValues ⟨b0, b1, b2⟩ = b0 * b1 * b2 := by
      simp only [nOutValues, n1, n2]
    refine ⟨?_, hin, hout, hn⟩
    unfold assertsHold
    rw [hin, hout, hn]
    refine ⟨⟨by omega, by omega⟩, by omega, by omega⟩
  refine ⟨main, ?_⟩
  unfold copyLoop
  rw [copyLoop_fold _ _ _ _ _ _ (fun it hit => (main it hit).1)]
  rfl

/-- Witness for C9: the block of size `{2, 2, 2}` at origin `{1, 1, 0}` of a `3 × 3 × 2` mesh
with 18 values. -/
theorem copy_indices_inside_witness :
    (copyLoop ⟨3, 3, 2⟩ ⟨1, 1, 0⟩ ⟨2, 2, 2⟩ 18).isSome = true ∧
    copyLoop ⟨3, 3, 2⟩ ⟨1, 1, 0⟩ ⟨2, 2, 2⟩ 18 =
      some [(0, 4), (1, 5), (2, 7), (3, 8), (4, 13), (5, 14), (6, 16), (7, 17)] :=
  ⟨(copy_indices_inside ⟨3, 3, 2⟩ ⟨1, 1, 0⟩ ⟨2, 2, 2⟩ 18 (by decide) (by decide) (by decide)
      (by decide) (by decide) (by decide) (by decide) (by decide) (by decide) (by decide)
      (by decide)).2,
    by rfl⟩

/-! ## Theorems: `ComputeBlockExtents` -/

theorem blockIndex_eq (b : Id3) (n : Int) :
    ComputeBlockExtents_blockIndex b n =
      ⟨n.tmod b.c0, (n.tdiv b.c0).tmod b.c1, ((n.tdiv b.c0).tdiv b.c1).tmod b.c2⟩ := by
  simp [ComputeBlockExtents_blockIndex, blockIndexLoop, Id3.get, Id3.set]

/-- Mixed-radix digits: for positive bases and `0 ≤ n < b0 * b1 * b2`, the three digits taken by
remainder and quotient are in range and rebuild `n`. -/
theorem mixedRadix_digits (b0 b1 b2 n : Int) (h0 : 1 ≤ b0) (h1 : 1 ≤ b1) (h2 : 1 ≤ b2)
    (hn0 : 0 ≤ n) (hn : n < b0 * b1 * b2) :
    (0 ≤ n % b0 ∧ n % b0 < b0) ∧ (0 ≤ n / b0 % b1 ∧ n / b0 % b1 < b1) ∧
    (0 ≤ n / b0 / b1 % b2 ∧ n / b0 / b1 % b2 < b2) ∧
    n = n % b0 + b0 * (n / b0 % b1 + b1 * (n / b0 / b1 % b2)) := by
  have q1 : 0 ≤ n / b0 := Int.ediv_nonneg hn0 (by omega)
  have q2 : 0 ≤ n / b0 / b1 := Int.ediv_nonneg q1 (by omega)
  have l1 : n / b0 < b1 * b2 := by
    apply Int.ediv_lt_of_lt_mul (by omega)
    calc n < b0 * b1 * b2 := hn
      _ = b1 * b2 * b0 := by ring
  have l2 : n / b0 / b1 < b2 := by
    apply Int.ediv_lt_of_lt_mul (by omega)
    calc n / b0 < b1 * b2 := l1
      _ = b2 * b1 := by ring
  have e2 : n / b0 / b1 % b2 = n / b0 / b1 := Int.emod_eq_of_lt q2 l2
  have d0 := Int.emod_add_ediv n b0
  have d1 := Int.emod_add_ediv (n / b0) b1
  refine ⟨⟨Int.emod_nonneg _ (by omega), Int.emod_lt_of_pos _ (by omega)⟩,
    ⟨Int.emod_nonneg _ (by omega), Int.emod_lt_of_pos _ (by omega)⟩,
    ⟨Int.emod_nonneg _ (by omega), Int.emod_lt_of_pos _ (by omega)⟩, ?_⟩
  rw [e2, d1, d0]

/-- For non-negative `blockNo` and positive `blocksPerAxis`, the truncating `%` and `/` of the
source are the Euclidean remainder and quotient. -/
theorem blockIndex_eq_euclid (b : Id3) (n : Int) (h0 : 1 ≤ b.c0) (h1 : 1 ≤ b.c1)
    (h2 : 1 ≤ b.c2) (hn0 : 0 ≤ n) :
    ComputeBlockExtents_blockIndex b n = ⟨n % b.c0, n / b.c0 % b.c1, n / b.c0 / b.c1 % b.c2⟩ := by
  have q1 : 0 ≤ n / b.c0 := Int.ediv_nonneg hn0 (by omega)
  have q2 : 0 ≤ n / b.c0 / b.c1 := Int.ediv_nonneg q1 (by omega)
  rw [blockIndex_eq, Int.tmod_eq_emod hn0 (by omega), Int.tdiv_eq_ediv hn0 (by omega),
    Int.tmod_eq_emod q1 (by omega), Int.tdiv_eq_ediv q1 (by omega),
    Int.tmod_eq_emod q2 (by omega)]

/-- C12: for every `blocksPerAxis` with all three components at least 1 and every `blockNo`
with `0 ≤ blockNo < blocksPerAxis[0]*blocksPerAxis[1]*blocksPerAxis[2]`, the `blockIndex`
returned by `ComputeBlockExtents` satisfies `0 ≤ blockIndex[d] < blocksPerAxis[d]` on each axis
and `blockNo = blockIndex[0] + blocksPerAxis[0] * (blockIndex[1] + blocksPerAxis[1] *
blockIndex[2])`; hence a second block number of that range with the same `blockIndex` is the
same block number. -/
theorem blockIndex_mixed_radix (blocksPerAxis : Id3) (blockNo : Int)
    (h0 : 1 ≤ blocksPerAxis.c0) (h1 : 1 ≤ blocksPerAxis.c1) (h2 : 1 ≤ blocksPerAxis.c2)
    (hn0 : 0 ≤ blockNo)
    (hn : blockNo < blocksPerAxis.c0 * blocksPerAxis.c1 * blocksPerAxis.c2) :
    (0 ≤ (ComputeBlockExtents_blockIndex blocksPerAxis blockNo).c0 ∧
      (ComputeBlockExtents_blockIndex blocksPerAxis blockNo).c0 < blocksPerAxis.c0) ∧
    (0 ≤ (ComputeBlockExtents_blockIndex blocksPerAxis blockNo).c1 ∧
      (ComputeBlockExtents_blockIndex blocksPerAxis blockNo).c1 < blocksPerAxis.c1) ∧
    (0 ≤ (ComputeBlockExtents_blockIndex blocksPerAxis blockNo).c2 ∧
      (ComputeBlockExtents_blockIndex blocksPerAxis blockNo).c2 < blocksPerAxis.c2) ∧
    blockNo = (ComputeBlockExtents_blockIndex blocksPerAxis blockNo).c0 +
      blocksPerAxis.c0 * ((ComputeBlockExtents_blockIndex blocksPerAxis blockNo).c1 +
        blocksPerAxis.c1 * (ComputeBlockExtents_blockIndex blocksPerAxis blockNo).c2) ∧
    (∀ other : Int, 0 ≤ other →
      other < blocksPerAxis.c0 * blocksPerAxis.c1 * blocksPerAxis.c2 →
      ComputeBlockExtents_blockIndex blocksPerAxis other =
        ComputeBlockExtents_blockIndex blocksPerAxis blockNo →
      other = blockNo) := by
  obtain ⟨r0, r1, r2, hrec⟩ :=
    mixedRadix_digits blocksPerAxis.c0 blocksPerAxis.c1 blocksPerAxis.c2 blockNo h0 h1 h2 hn0 hn
  have he := blockIndex_eq_euclid blocksPerAxis blockNo h0 h1 h2 hn0
  refine ⟨by rw [he]; exact r0, by rw [he]; exact r1, by rw [he]; exact r2,
    by rw [he]; exact hrec, ?_⟩
  intro other ho0 ho hsame
  obtain ⟨_, _, _, hrec'⟩ :=
    mixedRadix_digits blocksPerAxis.c0 blocksPerAxis.c1 blocksPerAxis.c2 other h0 h1 h2 ho0 ho
  have he' := blockIndex_eq_euclid blocksPerAxis other h0 h1 h2 ho0
  rw [he, he'] at hsame
  simp only [Id3.mk.injEq] at hsame
  obtain ⟨s0, s1, s2⟩ := hsame
  rw [hrec', hrec, s0, s1, s2]

/-- Witness for C12: block 7 of `blocksPerAxis = {2, 3, 2}` has `blockIndex = {1, 0, 1}`. -/
theorem blockIndex_mixed_radix_witness :
    ComputeBlockExtents_blockIndex ⟨2, 3, 2⟩ 7 = ⟨1, 0, 1⟩ ∧
    (7 : Int) = (ComputeBlockExtents_blockIndex ⟨2, 3, 2⟩ 7).c0 +
      (⟨2, 3, 2⟩ : Id3).c0 * ((ComputeBlockExtents_blockIndex ⟨2, 3, 2⟩ 7).c1 +
        (⟨2, 3, 2⟩ : Id3).c1 * (ComputeBlockExtents_blockIndex ⟨2, 3, 2⟩ 7).c2) :=
  ⟨by decide,
    (blockIndex_mixed_radix ⟨2, 3, 2⟩ 7 (by decide) (by decide) (by decide) (by decide)
      (by decide)).2.2.2.1⟩

/-! ## Theorems: `GetPartitionedDataSet` -/

theorem mul_int_bound (a b : Int) (ha0 : 0 ≤ a) (ha : a ≤ 2 ^ 31) (hb0 : 0 ≤ b)
    (hb : b < 2 ^ 31) : 0 ≤ a * b ∧ a * b ≤ 2 ^ 62 - 2 ^ 31 := by
  have h1 : a * b ≤ 2 ^ 31 * (2 ^ 31 - 1) := mul_le_mul ha (by omega) hb0 (by norm_num)
  have h2 : (2 : Int) ^ 31 * (2 ^ 31 - 1) = 2 ^ 62 - 2 ^ 31 := by norm_num
  exact ⟨mul_nonneg ha0 hb0, by omega⟩

/-- For `int` arguments with `numberOfRanks ≥ 1`, `numberOfBlocks ≥ 0` and
`0 ≤ rank < numberOfRanks`, no 64-bit operation of the split wraps: with
`q = numberOfBlocks / numberOfRanks` and `m = numberOfBlocks % numberOfRanks`, a rank below `m`
gets `q + 1` blocks from `(q + 1) * rank`, any other rank gets `q` blocks from
`m * (q + 1) + (rank - m) * q`. -/
theorem split_eq (numberOfBlocks rank numberOfRanks : Int)
    (hR : 1 ≤ numberOfRanks) (hRi : numberOfRanks < 2 ^ 31)
    (hN : 0 ≤ numberOfBlocks) (hNi : numberOfBlocks < 2 ^ 31)
    (hr0 : 0 ≤ rank) (hr : rank < numberOfRanks) :
    GetPartitionedDataSet_split numberOfBlocks rank numberOfRanks =
      if rank < numberOfBlocks % numberOfRanks then
        ⟨numberOfBlocks / numberOfRanks + 1, (numberOfBlocks / numberOfRanks + 1) * rank⟩
      else
        ⟨numberOfBlocks / numberOfRanks,
          numberOfBlocks % numberOfRanks * (numberOfBlocks / numberOfRanks + 1)
            + (rank - numberOfBlocks % numberOfRanks) * (numberOfBlocks / numberOfRanks)⟩ := by
  have hd : numberOfBlocks.tdiv numberOfRanks = numberOfBlocks / numberOfRanks :=
    Int.tdiv_eq_ediv hN (by omega)
  have hm : numberOfBlocks.tmod numberOfRanks = numberOfBlocks % numberOfRanks :=
    Int.tmod_eq_emod hN (by omega)
  have q0 : 0 ≤ numberOfBlocks / numberOfRanks := Int.ediv_nonneg hN (by omega)
  have q1 : numberOfBlocks / numberOfRanks ≤ numberOfBlocks := Int.ediv_le_self _ hN
  have m0 : 0 ≤ numberOfBlocks % numberOfRanks := Int.emod_nonneg _ (by omega)
  have m1 : numberOfBlocks % numberOfRanks < numberOfRanks := Int.emod_lt_of_pos _ (by omega)
  unfold GetPartitionedDataSet_split
  simp only [hd, hm]
  generalize numberOfBlocks / numberOfRanks = q at *
  generalize numberOfBlocks % numberOfRanks = m at *
  have e1 : idAdd q 1 = q + 1 := wrapId_of_IsId _ ⟨by omega, by omega⟩
  rw [e1]
  by_cases hlt : rank < m
  · obtain ⟨b0, b1⟩ := mul_int_bound (q + 1) rank (by omega) (by omega) hr0 (by omega)
    have e2 : idMul (q + 1) rank = (q + 1) * rank := wrapId_of_IsId _ ⟨by omega, by omega⟩
    simp only [hlt, if_true, e2]
  · obtain ⟨b0, b1⟩ := mul_int_bound (q + 1) m (by omega) (by omega) m0 (by omega)
    have b0c : m * (q + 1) = (q + 1) * m := mul_comm _ _
    obtain ⟨c0, c1⟩ := mul_int_bound (rank - m) q (by omega) (by omega) q0 (by omega)
    have e2 : idMul m (q + 1) = m * (q + 1) := wrapId_of_IsId _ ⟨by omega, by omega⟩
    have e3 : idSub rank m = rank - m := wrapId_of_IsId _ ⟨by omega, by omega⟩
    have e4 : idMul (rank - m) q = (rank - m) * q := wrapId_of_IsId _ ⟨by omega, by omega⟩
    have e5 : idAdd (m * (q + 1)) ((rank - m) * q) = m * (q + 1) + (rank - m) * q :=
      wrapId_of_IsId _ ⟨by omega, by omega⟩
    simp only [hlt, if_false, e2, e3, e4, e5]

/-- The block numbers handed to `ComputeBlockExtents` on a rank are exactly the integers of
`[startBlockNo, startBlockNo + blocksOnThisRank)`: the sum `startBlockNo + blockNo` does not
wrap. -/
theorem mem_blocksOfRank (numberOfBlocks numberOfRanks rank : Int)
    (hR : 1 ≤ numberOfRanks) (hRi : numberOfRanks < 2 ^ 31)
    (hN : 0 ≤ numberOfBlocks) (hNi : numberOfBlocks < 2 ^ 31)
    (hr0 : 0 ≤ rank) (hr : rank < numberOfRanks) (b : Int) :
    b ∈ blocksOfRank numberOfBlocks numberOfRanks rank ↔
      startBlockNo numberOfBlocks numberOfRanks rank ≤ b ∧
      b < startBlockNo numberOfBlocks numberOfRanks rank
            + blocksOnThisRank numberOfBlocks numberOfRanks rank := by
  have q0 : 0 ≤ numberOfBlocks / numberOfRanks := Int.ediv_nonneg hN (by omega)
  have q1 : numberOfBlocks / numberOfRanks ≤ numberOfBlocks := Int.ediv_le_self _ hN
  have m0 : 0 ≤ numberOfBlocks % numberOfRanks := Int.emod_nonneg _ (by omega)
  have m1 : numberOfBlocks % numberOfRanks < numberOfRanks := Int.emod_lt_of_pos _ (by omega)
  have hsplit := split_eq numberOfBlocks rank numberOfRanks hR hRi hN hNi hr0 hr
  have hbound : 0 ≤ startBlockNo numberOfBlocks numberOfRanks rank ∧
      startBlockNo numberOfBlocks numberOfRanks rank ≤ 2 ^ 63 - 2 ^ 32 ∧
      blocksOnThisRank numberOfBlocks numberOfRanks rank ≤ 2 ^ 31 := by
    unfold startBlockNo blocksOnThisRank
    rw [hsplit]
    generalize numberOfBlocks / numberOfRanks = q at *
    generalize numberOfBlocks % numberOfRanks = m at *
    by_cases hlt : rank < m
    · obtain ⟨b0, b1⟩ := mul_int_bound (q + 1) rank (by omega) (by omega) hr0 (by omega)
      simp only [hlt, if_true]
      omega
    · obtain ⟨b0, b1⟩ := mul_int_bound (q + 1) m (by omega) (by omega) m0 (by omega)
      have b0c : m * (q + 1) = (q + 1) * m := mul_comm _ _
      obtain ⟨c0, c1⟩ := mul_int_bound (rank - m) q (by omega) (by omega) q0 (by omega)
      simp only [hlt, if_false]
      omega
  obtain ⟨s0, s1, c1⟩ := hbound
  unfold blocksOfRank
  simp only [List.mem_map, mem_loopValues]
  constructor
  · rintro ⟨k, ⟨hk0, hk⟩, rfl⟩
    have e : idAdd (startBlockNo numberOfBlocks numberOfRanks rank) k
        = startBlockNo numberOfBlocks numberOfRanks rank + k :=
      wrapId_of_IsId _ ⟨by omega, by omega⟩
    rw [e]
    omega
  · rintro ⟨h1, h2⟩
    refine ⟨b - startBlockNo numberOfBlocks numberOfRanks rank, ⟨by omega, by omega⟩, ?_⟩
    have e : idAdd (startBlockNo numberOfBlocks numberOfRanks rank)
        (b - startBlockNo numberOfBlocks numberOfRanks rank) = b := by
      unfold idAdd
      rw [wrapId_of_IsId _ ⟨by omega, by omega⟩]
      omega
    exact e

/-- C11: for `int` arguments with `numberOfRanks ≥ 1` and `numberOfBlocks ≥ 0`, the block
ranges `[startBlockNo(rank), startBlockNo(rank) + blocksOnThisRank(rank))` of
`GetPartitionedDataSet` over `rank = 0 .. numberOfRanks-1` partition `[0, numberOfBlocks)`:
`startBlockNo(0) = 0`, `startBlockNo(rank+1) = startBlockNo(rank) + blocksOnThisRank(rank)`, the
last range ends at `numberOfBlocks`, every count is non-negative, and the counts of any two
ranks differ by at most 1. -/
theorem rank_ranges_partition (numberOfBlocks numberOfRanks : Int)
    (hR : 1 ≤ numberOfRanks) (hRi : numberOfRanks < 2 ^ 31)
    (hN : 0 ≤ numberOfBlocks) (hNi : numberOfBlocks < 2 ^ 31) :
    startBlockNo numberOfBlocks numberOfRanks 0 = 0 ∧
    (∀ rank : Int, 0 ≤ rank → rank + 1 < numberOfRanks →
      startBlockNo numberOfBlocks numberOfRanks (rank + 1) =
        startBlockNo numberOfBlocks numberOfRanks rank
          + blocksOnThisRank numberOfBlocks numberOfRanks rank) ∧
    startBlockNo numberOfBlocks numberOfRanks (numberOfRanks - 1)
      + blocksOnThisRank numberOfBlocks numberOfRanks (numberOfRanks - 1) = numberOfBlocks ∧
    (∀ rank : Int, 0 ≤ rank → rank < numberOfRanks →
      0 ≤ blocksOnThisRank numberOfBlocks numberOfRanks rank) ∧
    (∀ r s : Int, 0 ≤ r → r < numberOfRanks → 0 ≤ s → s < numberOfRanks →
      blocksOnThisRank numberOfBlocks numberOfRanks r
        ≤ blocksOnThisRank numberOfBlocks numberOfRanks s + 1 ∧
      blocksOnThisRank numberOfBlocks numberOfRanks s
        ≤ blocksOnThisRank numberOfBlocks numberOfRanks r + 1) := by
  have q0 : 0 ≤ numberOfBlocks / numberOfRanks := Int.ediv_nonneg hN (by omega)
  have m0 : 0 ≤ numberOfBlocks % numberOfRanks := Int.emod_nonneg _ (by omega)
  have m1 : numberOfBlocks % numberOfRanks < numberOfRanks := Int.emod_lt_of_pos _ (by omega)
  have hdiv := Int.ediv_add_emod numberOfBlocks numberOfRanks
  have key : ∀ rank : Int, 0 ≤ rank → rank < numberOfRanks →
      (startBlockNo numberOfBlocks numberOfRanks rank =
        if rank < numberOfBlocks % numberOfRanks then
          (numberOfBlocks / numberOfRanks + 1) * rank
        else numberOfBlocks % numberOfRanks * (numberOfBlocks / numberOfRanks + 1)
          + (rank - numberOfBlocks % numberOfRanks) * (numberOfBlocks / numberOfRanks)) ∧
      (blocksOnThisRank numberOfBlocks numberOfRanks rank =
        if rank < numberOfBlocks % numberOfRanks then numberOfBlocks / numberOfRanks + 1
        else numberOfBlocks / numberOfRanks) := by
    intro rank h0 h1
    unfold startBlockNo blocksOnThisRank
    rw [split_eq numberOfBlocks rank numberOfRanks hR hRi hN hNi h0 h1]
    split <;> exact ⟨rfl, rfl⟩
  generalize numberOfBlocks / numberOfRanks = q at *
  generalize numberOfBlocks % numberOfRanks = m at *
  refine ⟨?_, ?_, ?_, ?_, ?_⟩
  · rw [(key 0 (by omega) (by omega)).1]
    by_cases h : (0 : Int) < m
    · simp [h]
    · have hm : m = 0 := by omega
      simp [hm]
  · intro rank h0 h1
    rw [(key (rank + 1) (by omega) h1).1, (key rank h0 (by omega)).1,
      (key rank h0 (by omega)).2]
    by_cases ha : rank + 1 < m
    · have hb : rank < m := by omega
      simp only [ha, hb, if_true]
      ring
    · by_cases hb : rank < m
      · have hm : m = rank + 1 := by omega
        simp only [ha, hb, if_true, if_false]
        rw [hm]
        ring
      · simp only [ha, hb, if_false]
        ring
  · rw [(key (numberOfRanks - 1) (by omega) (by omega)).1,
      (key (numberOfRanks - 1) (by omega) (by omega)).2]
    have ha : ¬ (numberOfRanks - 1 < m) := by omega
    simp only [ha, if_false]
    linear_combination hdiv
  · intro rank h0 h1
    rw [(key rank h0 h1).2]
    split <;> omega
  · intro r s hr0 hr hs0 hs
    rw [(key r hr0 hr).2, (key s hs0 hs).2]
    constructor <;> split <;> split <;> omega

/-- Witness for C11: 10 blocks on 4 ranks start at 0, 3, 6, 8 with 3, 3, 2, 2 blocks. -/
theorem rank_ranges_partition_witness :
    startBlockNo 10 4 0 = 0 ∧
    startBlockNo 10 4 (4 - 1) + blocksOnThisRank 10 4 (4 - 1) = 10 ∧
    (List.range 4).map (fun r => GetPartitionedDataSet_split 10 r 4) =
      [⟨3, 0⟩, ⟨3, 3⟩, ⟨2, 6⟩, ⟨2, 8⟩] :=
  ⟨(rank_ranges_partition 10 4 (by decide) (by decide) (by decide) (by decide)).1,
    (rank_ranges_partition 10 4 (by decide) (by decide) (by decide) (by decide)).2.2.1,
    by decide⟩

end Ascent
